import Mathlib

/-!
Shallow embedding of the evaluation part of an RL-based recommendation
system (notebook `testing.ipynb`): the ranking metrics `precision_at_k`
and `recall_at_k`, the episodic simulator `AmazonEnv` (`reset` / `step`),
the agent's `select_action`, and the item-id remapping built from the
train/test splits.  Ratings and rewards are modelled as rationals,
item and user ids as naturals.
-/

namespace RLRec

/-- Python's slice `l[:k]` for an arbitrary integer `k`
(a negative `k` counts from the end of the list). -/
def pySlice {α : Type} (l : List α) (k : ℤ) : List α :=
  if 0 ≤ k then l.take k.toNat else l.take (l.length + k).toNat

/-- Python's slice `l[-n:]`.  For `n = 0` this is `l[0:] = l`,
otherwise it is the last `min n l.length` elements. -/
def lastSlice {α : Type} (l : List α) (n : ℕ) : List α :=
  if n = 0 then l else l.drop (l.length - n)

/-- `precision_at_k` from the notebook:
`top_k = recommended[:k]`, `hits = len([item for item in top_k if item
in relevant_set])` (a count WITH multiplicity over the list `top_k`),
returning `hits / k if k > 0 else 0`. -/
def precision_at_k (recommended relevant : List ℕ) (k : ℤ) : ℚ :=
  let top_k := pySlice recommended k
  let hits := (top_k.filter (fun item => decide (item ∈ relevant))).length
  if 0 < k then (hits : ℚ) / (k : ℚ) else 0

/-- `recall_at_k` from the notebook:
`hits = len(set(top_k) & relevant_set)` (distinct elements of `top_k`
that are relevant), `total_relevant_at_k = min(len(relevant), k)`,
returning `hits / total_relevant_at_k if total_relevant_at_k > 0 else 0`. -/
def recall_at_k (recommended relevant : List ℕ) (k : ℤ) : ℚ :=
  let top_k := pySlice recommended k
  let hits := (top_k.dedup.filter (fun item => decide (item ∈ relevant))).length
  let total_relevant_at_k : ℤ := min (relevant.length : ℤ) k
  if 0 < total_relevant_at_k then (hits : ℚ) / (total_relevant_at_k : ℚ)
  else 0

/-- Configuration of `AmazonEnv`: the ratings dictionary
`user_ratings[(user, item)]`, the item count `num_items`, the history
window `N` and the episode length `M`.  The random sampling of
`current_user` in `reset` is modelled by passing the sampled user in. -/
structure EnvConfig where
  user_ratings : ℕ × ℕ → Option ℚ
  num_items : ℕ
  N : ℕ
  M : ℕ

/-- The mutable part of `AmazonEnv`: `current_user` and `history`. -/
structure EnvState where
  current_user : ℕ
  history : List (ℕ × ℚ)
deriving DecidableEq

/-- `AmazonEnv.reset`: sets `current_user` to the sampled user, clears
`history` and returns the observation
`[current_user] + [0]*N + [0]*N`. -/
def reset (cfg : EnvConfig) (sampled_user : ℕ) : EnvState × List ℚ :=
  ({ current_user := sampled_user, history := [] },
   (sampled_user : ℚ) ::
     (List.replicate cfg.N (0 : ℚ) ++ List.replicate cfg.N (0 : ℚ)))

/-- The observation built at the end of `AmazonEnv.step` from the
(post-append) history:
`if len(history) < N` then left-zero-pad all of `history`, else take
`history[-N:]`; observation is `[current_user] + state_items +
state_ratings`. -/
def stepObs (cfg : EnvConfig) (s : EnvState) : List ℚ :=
  let state_items : List ℚ :=
    if s.history.length < cfg.N then
      List.replicate (cfg.N - s.history.length) (0 : ℚ) ++
        s.history.map (fun p => (p.1 : ℚ))
    else
      (lastSlice s.history cfg.N).map (fun p => (p.1 : ℚ))
  let state_ratings : List ℚ :=
    if s.history.length < cfg.N then
      List.replicate (cfg.N - s.history.length) (0 : ℚ) ++
        s.history.map (fun p => p.2)
    else
      (lastSlice s.history cfg.N).map (fun p => p.2)
  (s.current_user : ℚ) :: (state_items ++ state_ratings)

/-- `AmazonEnv.step`: looks up `(current_user, action)` in
`user_ratings`; reward is the rating if present, else `-0.1`; appends
`(action, reward)` to `history`; builds the observation from the new
history; `done = len(history) >= M`.  Returns
`(new state, observation, reward, done)`.  Note: the action is NOT
validated against `[0, num_items)`. -/
def step (cfg : EnvConfig) (s : EnvState) (action : ℕ) :
    EnvState × List ℚ × ℚ × Bool :=
  let reward : ℚ :=
    match cfg.user_ratings (s.current_user, action) with
    | some r => r
    | none => -(1 / 10)
  let s2 : EnvState :=
    { current_user := s.current_user, history := s.history ++ [(action, reward)] }
  (s2, stepObs cfg s2, reward, decide (cfg.M ≤ s2.history.length))

/-- Run a sequence of actions through `step`, returning the final state. -/
def runSteps (cfg : EnvConfig) (s : EnvState) : List ℕ → EnvState
  | [] => s
  | a :: rest => runSteps cfg (step cfg s a).1 rest

/-- The environment state after `reset` (sampling `u`) followed by the
given list of actions. -/
def stateAfter (cfg : EnvConfig) (u : ℕ) (as : List ℕ) : EnvState :=
  runSteps cfg (reset cfg u).1 as

/-- The item slots of an observation: entries `1 .. N`. -/
def obsItems (cfg : EnvConfig) (obs : List ℚ) : List ℚ :=
  (obs.drop 1).take cfg.N

/-- The reward slots of an observation: entries `N+1 .. 2N`. -/
def obsRewards (cfg : EnvConfig) (obs : List ℚ) : List ℚ :=
  (obs.drop 1).drop cfg.N

/-- Number of leading zero entries of a numeric list. -/
def leadingZeros (l : List ℚ) : ℕ :=
  (l.takeWhile (fun x => decide (x = 0))).length

/-- First index of the maximal entry, accumulator version: `i` is the
index of the head of `xs` in the full list, `best` the best index so
far, `bv` its value; a later entry replaces `best` only if strictly
greater. -/
def argmaxAux : List ℚ → ℕ → ℕ → ℚ → ℕ
  | [], _, best, _ => best
  | x :: xs, i, best, bv =>
      if bv < x then argmaxAux xs (i + 1) i x else argmaxAux xs (i + 1) best bv

/-- `torch.argmax` on a score vector: the index of the first occurrence
of the maximum (`0` on the empty list). -/
def argmaxFirst : List ℚ → ℕ
  | [] => 0
  | x :: xs => argmaxAux xs 1 0 x

/-- `DQNAgent.select_action` with the two random draws made explicit:
`explore` models `random.random() < 0.75` and `choice` the uniform
index of `random.choice(list(user_items))`.  The source tests
`if user_items and random.random() < 0.75`, i.e. the known-relevant-item
branch fires only when `user_items` is non-empty AND the draw fires;
otherwise it returns `q_values.argmax()`. -/
def select_action (q_values : List ℚ) (user_items : List ℕ)
    (explore : Bool) (choice : ℕ) : ℕ :=
  if user_items ≠ [] ∧ explore = true then
    user_items.getD (choice % user_items.length) 0
  else
    argmaxFirst q_values

/-- Helper for `uniqueFS`: keep the elements not yet seen. -/
def uniqueFSAux : List ℕ → List ℕ → List ℕ
  | [], _ => []
  | x :: xs, seen =>
      if x ∈ seen then uniqueFSAux xs seen else x :: uniqueFSAux xs (x :: seen)

/-- `pd.unique`: the distinct elements of a list in first-seen order. -/
def uniqueFS (l : List ℕ) : List ℕ :=
  uniqueFSAux l []

/-- The notebook's `item_mapping`:
`all_items = pd.concat([df_train, df_test]).unique()` and
`{old: new for new, old in enumerate(all_items)}`, i.e. the position of
an original id in the first-seen-order distinct list of
`train ++ test` (absent ids are not in the dictionary). -/
def item_mapping (train test : List ℕ) : ℕ → Option ℕ :=
  fun old => (uniqueFS (train ++ test)).findIdx? (fun y => decide (y = old))

/-- The notebook's `num_items = df_train['item_idx'].nunique()` taken
AFTER remapping: the number of distinct remapped ids occurring in the
TRAIN split only. -/
def num_items_src (train test : List ℕ) : ℕ :=
  (uniqueFS (train.map (fun o => (item_mapping train test o).getD 0))).length

/-- Left-pad a numeric list with zeros to length `n`. -/
def leftPadZero (n : ℕ) (l : List ℚ) : List ℚ :=
  List.replicate (n - l.length) 0 ++ l

/-- The most recent `min n h.length` entries of a history. -/
def recentEntries (n : ℕ) (h : List (ℕ × ℚ)) : List (ℕ × ℚ) :=
  h.drop (h.length - min n h.length)

/-- Modelled from the spec's words, for comparison with `stepObs`:
`[current_user]` followed by the item ids of the most recent
`min(N, len(history))` history entries left-zero-padded to exactly `N`
slots, followed by the rewards of the same entries left-zero-padded to
exactly `N` slots. -/
def specObservation (cfg : EnvConfig) (u : ℕ) (h : List (ℕ × ℚ)) : List ℚ :=
  (u : ℚ) ::
    (leftPadZero cfg.N ((recentEntries cfg.N h).map (fun p => (p.1 : ℚ))) ++
     leftPadZero cfg.N ((recentEntries cfg.N h).map (fun p => p.2)))

/-!  Theorems.  -/

/-- The count of distinct elements of `top` that lie in `rel` is the
cardinality of the set intersection. -/
lemma length_dedup_filter_eq_card_inter (top rel : List ℕ) :
    (top.dedup.filter (fun i => decide (i ∈ rel))).length
      = (top.toFinset ∩ rel.toFinset).card := by
  have hnd : (top.dedup.filter (fun i => decide (i ∈ rel))).Nodup :=
    (List.nodup_dedup top).filter _
  rw [← List.toFinset_card_of_nodup hnd]
  congr 1
  apply Finset.ext
  intro a
  simp [List.mem_toFinset, List.mem_filter, List.mem_dedup, Finset.mem_inter]

/-- C1: `recall_at_k` equals `|set(recommended[:k]) ∩ relevant| /
min(|relevant|, k)`, is `0` whenever `min(|relevant|, k) ≤ 0`, is `0`
for empty `relevant` and any `k > 0`, and is `0` for every `k ≤ 0`. -/
theorem recall_at_k_correct (recommended relevant : List ℕ) (k : ℤ) :
    (0 < min (relevant.length : ℤ) k →
      recall_at_k recommended relevant k =
        (((pySlice recommended k).toFinset ∩ relevant.toFinset).card : ℚ) /
          ((min (relevant.length : ℤ) k : ℤ) : ℚ))
    ∧ (min (relevant.length : ℤ) k ≤ 0 → recall_at_k recommended relevant k = 0)
    ∧ (relevant = [] → 0 < k → recall_at_k recommended relevant k = 0)
    ∧ (k ≤ 0 → recall_at_k recommended relevant k = 0) := by
  refine ⟨?_, ?_, ?_, ?_⟩
  · intro h
    simp only [recall_at_k, if_pos h, length_dedup_filter_eq_card_inter]
  · intro h
    simp only [recall_at_k, if_neg (not_lt.mpr h)]
  · intro h _
    subst h
    simp only [recall_at_k, List.length_nil, Nat.cast_zero]
    rw [if_neg]
    simp only [not_lt]
    exact min_le_left 0 k
  · intro h
    simp only [recall_at_k]
    rw [if_neg]
    simp only [not_lt]
    exact le_trans (min_le_right _ k) h

/-- Witness for `recall_at_k_correct` at a concrete input. -/
theorem recall_at_k_correct_witness :
    recall_at_k [1, 2, 3] [2, 3, 9] 2 =
      (((pySlice [1, 2, 3] 2).toFinset ∩ ([2, 3, 9] : List ℕ).toFinset).card : ℚ) /
        ((min (([2, 3, 9] : List ℕ).length : ℤ) 2 : ℤ) : ℚ) :=
  (recall_at_k_correct [1, 2, 3] [2, 3, 9] 2).1 (by decide)

/-- C2 counterexample: `precision_at_k` counts hits with multiplicity,
so on `recommended = [7,7]`, `relevant = [7]`, `k = 2` it returns `1`,
while the set-intersection formula of the claim gives `1/2`. -/
theorem precision_at_k_counterexample :
    precision_at_k [7, 7] [7] 2 = 1
    ∧ (((pySlice [7, 7] 2).toFinset ∩ ([7] : List ℕ).toFinset).card : ℚ) / (2 : ℚ)
        = 1 / 2
    ∧ (1 : ℚ) ≠ 1 / 2 := by
  refine ⟨?_, ?_, by norm_num⟩
  · have h : pySlice [7, 7] 2 = [7, 7] := by decide
    simp only [precision_at_k, h]
    norm_num
  · have h : pySlice [7, 7] 2 = [7, 7] := by decide
    rw [h]
    have h2 : (([7, 7] : List ℕ).toFinset ∩ ([7] : List ℕ).toFinset).card = 1 := by decide
    rw [h2]
    norm_num

/-- C2 amended: `precision_at_k` equals the number of entries of
`recommended[:k]` that lie in `relevant`, counted WITH multiplicity,
divided by `k`; and it is `0` for every `k ≤ 0`. -/
theorem precision_at_k_correct (recommended relevant : List ℕ) (k : ℤ) :
    (0 < k → precision_at_k recommended relevant k =
      (((pySlice recommended k).countP (fun i => decide (i ∈ relevant))) : ℚ) / (k : ℚ))
    ∧ (k ≤ 0 → precision_at_k recommended relevant k = 0) := by
  constructor
  · intro h
    simp only [precision_at_k, if_pos h, List.countP_eq_length_filter]
  · intro h
    simp only [precision_at_k, if_neg (not_lt.mpr h)]

/-- Witness for `precision_at_k_correct` at a concrete input. -/
theorem precision_at_k_correct_witness :
    precision_at_k [1, 2, 2] [2, 9] 3 =
      (((pySlice [1, 2, 2] 3).countP (fun i => decide (i ∈ ([2, 9] : List ℕ)))) : ℚ) / (3 : ℚ) :=
  (precision_at_k_correct [1, 2, 2] [2, 9] 3).1 (by decide)

/-- For non-negative `k`, `l[:k]` has at most `k.toNat` elements. -/
lemma pySlice_length_le (l : List ℕ) (k : ℤ) (hk : 0 ≤ k) :
    (pySlice l k).length ≤ k.toNat := by
  simp only [pySlice, if_pos hk, List.length_take]
  exact min_le_left _ _

/-- C9: for every `k > 0`, `precision_at_k` and `recall_at_k` both lie
in the closed interval `[0, 1]`. -/
theorem metrics_in_unit_interval (recommended relevant : List ℕ) (k : ℤ)
    (hk : 0 < k) :
    0 ≤ precision_at_k recommended relevant k
    ∧ precision_at_k recommended relevant k ≤ 1
    ∧ 0 ≤ recall_at_k recommended relevant k
    ∧ recall_at_k recommended relevant k ≤ 1 := by
  have hkQ : (0 : ℚ) < ((k : ℤ) : ℚ) := by exact_mod_cast hk
  have hkNat : ((k.toNat : ℤ)) = k := Int.toNat_of_nonneg hk.le
  have hslice : (pySlice recommended k).length ≤ k.toNat :=
    pySlice_length_le recommended k hk.le
  refine ⟨?_, ?_, ?_, ?_⟩
  · simp only [precision_at_k, if_pos hk]
    exact div_nonneg (Nat.cast_nonneg _) hkQ.le
  · simp only [precision_at_k, if_pos hk]
    rw [div_le_one hkQ]
    have h1 : ((pySlice recommended k).filter
        (fun item => decide (item ∈ relevant))).length ≤ k.toNat :=
      le_trans (List.length_filter_le _ _) hslice
    calc (((pySlice recommended k).filter
            (fun item => decide (item ∈ relevant))).length : ℚ)
        ≤ (k.toNat : ℚ) := by exact_mod_cast h1
      _ = ((k : ℤ) : ℚ) := by exact_mod_cast hkNat
  · by_cases hmin : 0 < min (relevant.length : ℤ) k
    · simp only [recall_at_k, if_pos hmin]
      have hmQ : (0 : ℚ) < ((min (relevant.length : ℤ) k : ℤ) : ℚ) := by
        exact_mod_cast hmin
      exact div_nonneg (Nat.cast_nonneg _) hmQ.le
    · simp only [recall_at_k, if_neg hmin]
      exact le_refl 0
  · by_cases hmin : 0 < min (relevant.length : ℤ) k
    · simp only [recall_at_k, if_pos hmin]
      have hmQ : (0 : ℚ) < ((min (relevant.length : ℤ) k : ℤ) : ℚ) := by
        exact_mod_cast hmin
      rw [div_le_one hmQ, length_dedup_filter_eq_card_inter]
      have hA : ((pySlice recommended k).toFinset ∩ relevant.toFinset).card
          ≤ k.toNat :=
        le_trans (Finset.card_le_card Finset.inter_subset_left)
          (le_trans (List.toFinset_card_le _) hslice)
      have hB : ((pySlice recommended k).toFinset ∩ relevant.toFinset).card
          ≤ relevant.length :=
        le_trans (Finset.card_le_card Finset.inter_subset_right)
          (List.toFinset_card_le _)
      have hZ : ((((pySlice recommended k).toFinset ∩ relevant.toFinset).card : ℤ))
          ≤ min (relevant.length : ℤ) k := by
        refine le_min (by exact_mod_cast hB) ?_
        calc ((((pySlice recommended k).toFinset ∩ relevant.toFinset).card : ℤ))
            ≤ (k.toNat : ℤ) := by exact_mod_cast hA
          _ = k := hkNat
      exact_mod_cast hZ
    · simp only [recall_at_k, if_neg hmin]
      exact zero_le_one

/-- Witness for `metrics_in_unit_interval` at a concrete input. -/
theorem metrics_in_unit_interval_witness :
    0 ≤ precision_at_k [1, 2] [2] 2
    ∧ precision_at_k [1, 2] [2] 2 ≤ 1
    ∧ 0 ≤ recall_at_k [1, 2] [2] 2
    ∧ recall_at_k [1, 2] [2] 2 ≤ 1 :=
  metrics_in_unit_interval [1, 2] [2] 2 (by decide)

/-- `step` characterized: reward from the ratings lookup (penalty
`-0.1` on a miss), history extended by exactly the pair
`(action, reward)`, user unchanged. -/
lemma step_characterization (cfg : EnvConfig) (s : EnvState) (a : ℕ) :
    (∀ r, cfg.user_ratings (s.current_user, a) = some r →
        (step cfg s a).2.2.1 = r)
    ∧ (cfg.user_ratings (s.current_user, a) = none →
        (step cfg s a).2.2.1 = -(1 / 10))
    ∧ (step cfg s a).1.history = s.history ++ [(a, (step cfg s a).2.2.1)]
    ∧ (step cfg s a).1.history.length = s.history.length + 1
    ∧ (step cfg s a).1.current_user = s.current_user := by
  cases hr : cfg.user_ratings (s.current_user, a) with
  | none => simp [step, hr]
  | some r => simp [step, hr]

/-- C3: `step` returns reward `rating(current_user, action)` when it is
present in the store, reward `-0.1` when absent, and appends exactly
`(action, reward)` to the end of `history` (history grows by one). -/
theorem step_reward_and_history (cfg : EnvConfig) (s : EnvState) (a : ℕ) :
    (∀ r, cfg.user_ratings (s.current_user, a) = some r →
        (step cfg s a).2.2.1 = r)
    ∧ (cfg.user_ratings (s.current_user, a) = none →
        (step cfg s a).2.2.1 = -(1 / 10))
    ∧ (step cfg s a).1.history = s.history ++ [(a, (step cfg s a).2.2.1)]
    ∧ (step cfg s a).1.history.length = s.history.length + 1 :=
  ⟨(step_characterization cfg s a).1, (step_characterization cfg s a).2.1,
   (step_characterization cfg s a).2.2.1, (step_characterization cfg s a).2.2.2.1⟩

/-- Witness for `step_reward_and_history`: with a store rating
`(user 0, item 1)` at `4`, stepping action `1` yields reward `4`. -/
theorem step_reward_and_history_witness :
    (step ⟨fun p => if p = (0, 1) then some 4 else none, 2, 5, 10⟩
        { current_user := 0, history := [] } 1).2.2.1 = 4 :=
  (step_reward_and_history
      ⟨fun p => if p = (0, 1) then some 4 else none, 2, 5, 10⟩
      { current_user := 0, history := [] } 1).1 4 (by decide)

/-- `runSteps` adds one history entry per action and never changes
`current_user`. -/
lemma runSteps_history_length (cfg : EnvConfig) :
    ∀ (as : List ℕ) (s : EnvState),
      (runSteps cfg s as).history.length = s.history.length + as.length
      ∧ (runSteps cfg s as).current_user = s.current_user := by
  intro as
  induction as with
  | nil => intro s; simp [runSteps]
  | cons a rest ih =>
      intro s
      have h := ih (step cfg s a).1
      have hs : (step cfg s a).1.history.length = s.history.length + 1 :=
        (step_characterization cfg s a).2.2.2.1
      have hu : (step cfg s a).1.current_user = s.current_user :=
        (step_characterization cfg s a).2.2.2.2
      constructor
      · rw [runSteps, h.1, hs]
        simp [List.length_cons]
        omega
      · rw [runSteps, h.2, hu]

/-- The state after `reset` and `j` actions has a history of length `j`
and the sampled user. -/
lemma stateAfter_basic (cfg : EnvConfig) (u : ℕ) (as : List ℕ) :
    (stateAfter cfg u as).history.length = as.length
    ∧ (stateAfter cfg u as).current_user = u := by
  have h := runSteps_history_length cfg as (reset cfg u).1
  simpa [stateAfter, reset] using h

/-- C5: in an episode where no step is taken from an already-done
state (the `i`-th step starts from a state with `i` history entries,
so the hypothesis says every started step had `i < M`), the done flag
returned by the final step is true iff the history length equals `M`. -/
theorem done_iff_M_steps (cfg : EnvConfig) (u : ℕ) (as : List ℕ) (a : ℕ)
    (h : ∀ i, i < as.length + 1 → i < cfg.M) :
    (step cfg (stateAfter cfg u as) a).2.2.2 = decide (as.length + 1 = cfg.M) := by
  have hlen : (stateAfter cfg u as).history.length = as.length :=
    (stateAfter_basic cfg u as).1
  have hlast : as.length < cfg.M := h as.length (Nat.lt_succ_self _)
  have hiff : (cfg.M ≤ (stateAfter cfg u as).history.length + 1)
      ↔ (as.length + 1 = cfg.M) := by
    rw [hlen]
    omega
  simp only [step]
  rw [decide_eq_decide]
  simpa using hiff

/-- Witness for `done_iff_M_steps`: with `M = 2`, after one prior step
the second step reports done. -/
theorem done_iff_M_steps_witness :
    (step ⟨fun _ => none, 3, 5, 2⟩
        (stateAfter ⟨fun _ => none, 3, 5, 2⟩ 0 [1]) 2).2.2.2
      = decide (([1] : List ℕ).length + 1 = 2) :=
  done_iff_M_steps ⟨fun _ => none, 3, 5, 2⟩ 0 [1] 2 (by decide)

/-- C8 counterexample: with `num_items = 1`, stepping the out-of-range
action `5` raises no error and silently produces the penalty reward
`-0.1`, appending `(5, -0.1)` to history. -/
theorem step_out_of_range_counterexample :
    ¬ (5 < (⟨fun _ => none, 1, 5, 10⟩ : EnvConfig).num_items)
    ∧ (step (⟨fun _ => none, 1, 5, 10⟩ : EnvConfig)
        (reset (⟨fun _ => none, 1, 5, 10⟩ : EnvConfig) 0).1 5).2.2.1 = -(1 / 10)
    ∧ (step (⟨fun _ => none, 1, 5, 10⟩ : EnvConfig)
        (reset (⟨fun _ => none, 1, 5, 10⟩ : EnvConfig) 0).1 5).1.history
      = [(5, -(1 / 10))] := by
  refine ⟨by decide, ?_, ?_⟩ <;> simp [step, reset]

/-- C8 amended: `step` performs no range validation — an action id
outside `[0, num_items)` is processed like any other: reward is the
stored rating if the `(user, action)` key is present, else `-0.1`, and
the pair is appended to history; no error is surfaced. -/
theorem step_no_validation (cfg : EnvConfig) (s : EnvState) (a : ℕ)
    (ha : cfg.num_items ≤ a) :
    (cfg.user_ratings (s.current_user, a) = none →
        (step cfg s a).2.2.1 = -(1 / 10))
    ∧ (∀ r, cfg.user_ratings (s.current_user, a) = some r →
        (step cfg s a).2.2.1 = r)
    ∧ (step cfg s a).1.history = s.history ++ [(a, (step cfg s a).2.2.1)] :=
  ⟨(step_characterization cfg s a).2.1, (step_characterization cfg s a).1,
   (step_characterization cfg s a).2.2.1⟩

/-- Witness for `step_no_validation` at a concrete out-of-range action. -/
theorem step_no_validation_witness :
    (step (⟨fun _ => none, 1, 5, 10⟩ : EnvConfig)
        { current_user := 0, history := [] } 7).2.2.1 = -(1 / 10) :=
  (step_no_validation (⟨fun _ => none, 1, 5, 10⟩ : EnvConfig)
      { current_user := 0, history := [] } 7 (by decide)).1 rfl

/-- C10: the observation encoding is not injective in the episode
state: with a store assigning rating `0` to `(user 3, item 0)`, the
state just after `reset` (empty history) and the state after stepping
action `0` (history `[(0, 0)]`) are distinct, share the current user,
and produce identical observation vectors — padding zeros are
indistinguishable from item id `0` with reward `0`. -/
theorem observation_not_injective :
    (reset (⟨fun p => if p = (3, 0) then some 0 else none, 1, 5, 10⟩ : EnvConfig) 3).1
      ≠ (step (⟨fun p => if p = (3, 0) then some 0 else none, 1, 5, 10⟩ : EnvConfig)
          (reset (⟨fun p => if p = (3, 0) then some 0 else none, 1, 5, 10⟩ : EnvConfig) 3).1 0).1
    ∧ (step (⟨fun p => if p = (3, 0) then some 0 else none, 1, 5, 10⟩ : EnvConfig)
          (reset (⟨fun p => if p = (3, 0) then some 0 else none, 1, 5, 10⟩ : EnvConfig) 3).1 0).1.current_user = 3
    ∧ (step (⟨fun p => if p = (3, 0) then some 0 else none, 1, 5, 10⟩ : EnvConfig)
          (reset (⟨fun p => if p = (3, 0) then some 0 else none, 1, 5, 10⟩ : EnvConfig) 3).1 0).1.history
        = [(0, 0)]
    ∧ (step (⟨fun p => if p = (3, 0) then some 0 else none, 1, 5, 10⟩ : EnvConfig)
          (reset (⟨fun p => if p = (3, 0) then some 0 else none, 1, 5, 10⟩ : EnvConfig) 3).1 0).2.1
        = (reset (⟨fun p => if p = (3, 0) then some 0 else none, 1, 5, 10⟩ : EnvConfig) 3).2
    ∧ stepObs (⟨fun p => if p = (3, 0) then some 0 else none, 1, 5, 10⟩ : EnvConfig)
          (reset (⟨fun p => if p = (3, 0) then some 0 else none, 1, 5, 10⟩ : EnvConfig) 3).1
        = stepObs (⟨fun p => if p = (3, 0) then some 0 else none, 1, 5, 10⟩ : EnvConfig)
          (step (⟨fun p => if p = (3, 0) then some 0 else none, 1, 5, 10⟩ : EnvConfig)
            (reset (⟨fun p => if p = (3, 0) then some 0 else none, 1, 5, 10⟩ : EnvConfig) 3).1 0).1 := by
  refine ⟨?_, ?_, ?_, ?_, ?_⟩ <;>
    simp [reset, step, stepObs, lastSlice, List.replicate]

/-- For `N ≥ 1` the observation built by `step` matches the spec-side
description: user, then the most recent `min(N, len(history))` item ids
left-zero-padded to `N`, then the same entries' rewards
left-zero-padded to `N`. -/
lemma stepObs_eq_spec (cfg : EnvConfig) (hN : 1 ≤ cfg.N) (s : EnvState) :
    stepObs cfg s = specObservation cfg s.current_user s.history := by
  by_cases hlt : s.history.length < cfg.N
  · have hmin : min cfg.N s.history.length = s.history.length :=
      min_eq_right hlt.le
    simp only [stepObs, specObservation, recentEntries, leftPadZero, if_pos hlt,
      hmin, Nat.sub_self, List.drop_zero, List.length_map]
  · push_neg at hlt
    have hmin : min cfg.N s.history.length = cfg.N := min_eq_left hlt
    have hN0 : cfg.N ≠ 0 := by omega
    have hdlen : (s.history.drop (s.history.length - cfg.N)).length = cfg.N := by
      rw [List.length_drop]
      omega
    simp only [stepObs, specObservation, recentEntries, leftPadZero, lastSlice,
      if_neg (not_lt.mpr hlt), if_neg hN0, hmin, List.length_map, hdlen,
      Nat.sub_self, List.replicate_zero, List.nil_append]

/-- With fewer than `N` history entries, the item and reward slots of
the observation are the zero-padded history columns. -/
lemma stepObs_components_of_lt (cfg : EnvConfig) (s : EnvState)
    (hlt : s.history.length < cfg.N) :
    obsItems cfg (stepObs cfg s)
      = List.replicate (cfg.N - s.history.length) 0 ++
          s.history.map (fun p => (p.1 : ℚ))
    ∧ obsRewards cfg (stepObs cfg s)
      = List.replicate (cfg.N - s.history.length) 0 ++
          s.history.map (fun p => p.2) := by
  have hleni : (List.replicate (cfg.N - s.history.length) (0 : ℚ) ++
      s.history.map (fun p => (p.1 : ℚ))).length = cfg.N := by
    simp only [List.length_append, List.length_replicate, List.length_map]
    omega
  constructor
  · simp only [obsItems, stepObs, if_pos hlt]
    rw [show ∀ (x : ℚ) (l : List ℚ), (x :: l).drop 1 = l from fun _ _ => rfl]
    exact List.take_left' hleni
  · simp only [obsRewards, stepObs, if_pos hlt]
    rw [show ∀ (x : ℚ) (l : List ℚ), (x :: l).drop 1 = l from fun _ _ => rfl]
    exact List.drop_left' hleni

/-- C4 amended: for every `N ≥ 1`, the observation returned by the
`j`-th step equals `[current_user]` followed by the item ids of the
most recent `min(N, j)` history entries left-zero-padded to exactly `N`
slots, followed by the rewards of the same entries left-zero-padded to
exactly `N` slots; for `j = 0` it coincides with the observation
returned by `reset`; and for `j < N` AT LEAST the first `N - j` item
slots and reward slots are zero (exactly `N - j` only when the oldest
retained entry has a non-zero item id resp. reward). -/
theorem observation_correct (cfg : EnvConfig) (u : ℕ) (as : List ℕ)
    (hN : 1 ≤ cfg.N) :
    stepObs cfg (stateAfter cfg u as)
        = specObservation cfg u (stateAfter cfg u as).history
    ∧ (as = [] → stepObs cfg (stateAfter cfg u as) = (reset cfg u).2)
    ∧ (as.length < cfg.N →
        (obsItems cfg (stepObs cfg (stateAfter cfg u as))).take (cfg.N - as.length)
          = List.replicate (cfg.N - as.length) 0
        ∧ (obsRewards cfg (stepObs cfg (stateAfter cfg u as))).take (cfg.N - as.length)
          = List.replicate (cfg.N - as.length) 0) := by
  obtain ⟨hlen, huser⟩ := stateAfter_basic cfg u as
  refine ⟨?_, ?_, ?_⟩
  · rw [stepObs_eq_spec cfg hN _, huser]
  · intro h
    subst h
    have h0 : (0 : ℕ) < cfg.N := hN
    show stepObs cfg (reset cfg u).1 = (reset cfg u).2
    simp [stepObs, reset, h0]
  · intro hj
    have hlt : (stateAfter cfg u as).history.length < cfg.N := by
      rw [hlen]
      exact hj
    obtain ⟨hi, hr⟩ := stepObs_components_of_lt cfg _ hlt
    rw [hlen] at hi hr
    constructor
    · rw [hi]
      exact List.take_left' (List.length_replicate _ _)
    · rw [hr]
      exact List.take_left' (List.length_replicate _ _)

/-- Witness for `observation_correct` at a concrete input. -/
theorem observation_correct_witness :
    stepObs (⟨fun _ => none, 2, 5, 10⟩ : EnvConfig)
        (stateAfter (⟨fun _ => none, 2, 5, 10⟩ : EnvConfig) 4 [1])
      = specObservation (⟨fun _ => none, 2, 5, 10⟩ : EnvConfig) 4
          (stateAfter (⟨fun _ => none, 2, 5, 10⟩ : EnvConfig) 4 [1]).history :=
  (observation_correct (⟨fun _ => none, 2, 5, 10⟩ : EnvConfig) 4 [1]
      (by decide)).1

/-- C4 counterexample: the leading-zero count is not exactly `N - j`.
With `N = 5` and one step on item id `0` (reward `-0.1`, no rating
stored), all `5` item slots are zero although `N - j = 4`; and with
`N = 0` the observation after one step contains the whole history
instead of `N = 0` padded slots (length `3`, not `1 + 2N = 1`). -/
theorem observation_padding_counterexample :
    leadingZeros (obsItems (⟨fun _ => none, 1, 5, 10⟩ : EnvConfig)
        (stepObs (⟨fun _ => none, 1, 5, 10⟩ : EnvConfig)
          (stateAfter (⟨fun _ => none, 1, 5, 10⟩ : EnvConfig) 3 [0]))) = 5
    ∧ (5 : ℕ) ≠ (⟨fun _ => none, 1, 5, 10⟩ : EnvConfig).N - ([0] : List ℕ).length
    ∧ (stepObs (⟨fun _ => none, 1, 0, 10⟩ : EnvConfig)
        (stateAfter (⟨fun _ => none, 1, 0, 10⟩ : EnvConfig) 3 [2])).length = 3
    ∧ (3 : ℕ) ≠ 1 + 2 * (⟨fun _ => none, 1, 0, 10⟩ : EnvConfig).N := by
  have h1 : obsItems (⟨fun _ => none, 1, 5, 10⟩ : EnvConfig)
      (stepObs (⟨fun _ => none, 1, 5, 10⟩ : EnvConfig)
        (stateAfter (⟨fun _ => none, 1, 5, 10⟩ : EnvConfig) 3 [0]))
      = [0, 0, 0, 0, 0] := by
    simp [stateAfter, runSteps, step, stepObs, reset, obsItems, List.replicate]
  refine ⟨?_, by decide, ?_, by decide⟩
  · rw [h1]
    simp [leadingZeros, List.takeWhile]
  · simp [stateAfter, runSteps, step, stepObs, reset, lastSlice]

/-- Invariant proof of the argmax fold: if `best` is the first index of
the maximum of `pre` (value `pre.getD best 0`), then running the fold
over `xs` yields the first index of the maximum of `pre ++ xs`. -/
lemma argmaxAux_spec (xs : List ℚ) :
    ∀ (pre : List ℚ) (best : ℕ),
      best < pre.length →
      (∀ j, j < pre.length → pre.getD j 0 ≤ pre.getD best 0) →
      (∀ j, j < best → pre.getD j 0 < pre.getD best 0) →
      argmaxAux xs pre.length best (pre.getD best 0) < (pre ++ xs).length
      ∧ (∀ j, j < (pre ++ xs).length →
          (pre ++ xs).getD j 0
            ≤ (pre ++ xs).getD (argmaxAux xs pre.length best (pre.getD best 0)) 0)
      ∧ (∀ j, j < argmaxAux xs pre.length best (pre.getD best 0) →
          (pre ++ xs).getD j 0
            < (pre ++ xs).getD (argmaxAux xs pre.length best (pre.getD best 0)) 0) := by
  induction xs with
  | nil =>
      intro pre best h1 h2 h3
      simp only [argmaxAux, List.append_nil]
      exact ⟨h1, h2, h3⟩
  | cons x xs ih =>
      intro pre best h1 h2 h3
      have hkey : pre ++ x :: xs = (pre ++ [x]) ++ xs := by simp
      have e1 : (pre ++ [x]).length = pre.length + 1 := by simp
      have e2 : (pre ++ [x]).getD pre.length 0 = x := by
        rw [List.getD_append_right _ _ _ _ (le_refl _), Nat.sub_self]
        exact List.getD_cons_zero
      by_cases hx : pre.getD best 0 < x
      · have hunf : argmaxAux (x :: xs) pre.length best (pre.getD best 0)
            = argmaxAux xs (pre.length + 1) pre.length x := by
          simp only [argmaxAux, if_pos hx]
        have h1' : pre.length < (pre ++ [x]).length := by
          rw [e1]
          exact Nat.lt_succ_self _
        have h2' : ∀ j, j < (pre ++ [x]).length →
            (pre ++ [x]).getD j 0 ≤ (pre ++ [x]).getD pre.length 0 := by
          intro j hj
          rw [e2]
          rcases lt_or_ge j pre.length with hlt | hge
          · rw [List.getD_append _ _ _ _ hlt]
            exact le_of_lt (lt_of_le_of_lt (h2 j hlt) hx)
          · have hj' : j = pre.length := by
              rw [e1] at hj
              omega
            subst hj'
            rw [e2]
        have h3' : ∀ j, j < pre.length →
            (pre ++ [x]).getD j 0 < (pre ++ [x]).getD pre.length 0 := by
          intro j hj
          rw [e2, List.getD_append _ _ _ _ hj]
          exact lt_of_le_of_lt (h2 j hj) hx
        have hres := ih (pre ++ [x]) pre.length h1' h2' h3'
        rw [e1, e2] at hres
        rw [hkey, hunf]
        exact hres
      · have hunf : argmaxAux (x :: xs) pre.length best (pre.getD best 0)
            = argmaxAux xs (pre.length + 1) best (pre.getD best 0) := by
          simp only [argmaxAux, if_neg hx]
        have e3 : (pre ++ [x]).getD best 0 = pre.getD best 0 :=
          List.getD_append _ _ _ _ h1
        have h1' : best < (pre ++ [x]).length := by
          rw [e1]
          exact Nat.lt_succ_of_lt h1
        have h2' : ∀ j, j < (pre ++ [x]).length →
            (pre ++ [x]).getD j 0 ≤ (pre ++ [x]).getD best 0 := by
          intro j hj
          rw [e3]
          rcases lt_or_ge j pre.length with hlt | hge
          · rw [List.getD_append _ _ _ _ hlt]
            exact h2 j hlt
          · have hj' : j = pre.length := by
              rw [e1] at hj
              omega
            subst hj'
            rw [e2]
            exact le_of_not_lt hx
        have h3' : ∀ j, j < best →
            (pre ++ [x]).getD j 0 < (pre ++ [x]).getD best 0 := by
          intro j hj
          rw [e3, List.getD_append _ _ _ _ (lt_trans hj h1)]
          exact h3 j hj
        have hres := ih (pre ++ [x]) best h1' h2' h3'
        rw [e1, e3] at hres
        rw [hkey, hunf]
        exact hres

/-- `argmaxFirst` returns the index of the first occurrence of the
maximum: the value there is maximal and strictly greater than every
earlier entry. -/
lemma argmaxFirst_spec (q : List ℚ) (hq : q ≠ []) :
    argmaxFirst q < q.length
    ∧ (∀ j, j < q.length → q.getD j 0 ≤ q.getD (argmaxFirst q) 0)
    ∧ (∀ j, j < argmaxFirst q → q.getD j 0 < q.getD (argmaxFirst q) 0) := by
  cases q with
  | nil => exact absurd rfl hq
  | cons x xs =>
      have h := argmaxAux_spec xs [x] 0 (by simp)
        (by
          intro j hj
          have hj0 : j = 0 := by simpa using hj
          subst hj0
          exact le_refl _)
        (by intro j hj; omega)
      simpa only [List.length_singleton, List.getD_cons_zero,
        List.singleton_append, argmaxFirst] using h

/-- C6: with the random draws made explicit, `select_action` is a pure
function of `(scores, knownRelevantItems, draws)`.  When the
exploration draw fires and the known-relevant-item set is non-empty it
returns the drawn member of that set; otherwise it returns the argmax
of the score vector with ties broken by the lowest item id (its score
is maximal and strictly above every lower-id score). -/
theorem select_action_correct (q : List ℚ) (ui : List ℕ) (ex : Bool)
    (c : ℕ) (hq : q ≠ []) :
    (ui ≠ [] → ex = true →
        select_action q ui ex c = ui.getD (c % ui.length) 0
        ∧ select_action q ui ex c ∈ ui)
    ∧ ((ui = [] ∨ ex = false) →
        select_action q ui ex c < q.length
        ∧ (∀ j, j < q.length →
            q.getD j 0 ≤ q.getD (select_action q ui ex c) 0)
        ∧ (∀ j, j < select_action q ui ex c →
            q.getD j 0 < q.getD (select_action q ui ex c) 0)) := by
  constructor
  · intro hui hex
    have hcond : ui ≠ [] ∧ ex = true := ⟨hui, hex⟩
    have hsel : select_action q ui ex c = ui.getD (c % ui.length) 0 := by
      simp only [select_action, if_pos hcond]
    refine ⟨hsel, ?_⟩
    rw [hsel]
    have hlen : 0 < ui.length := List.length_pos.mpr hui
    have hmod : c % ui.length < ui.length := Nat.mod_lt _ hlen
    rw [List.getD_eq_getElem _ _ hmod]
    exact List.getElem_mem _
  · intro hcase
    have hcond : ¬ (ui ≠ [] ∧ ex = true) := by
      rcases hcase with h | h
      · intro hc
        exact hc.1 h
      · intro hc
        rw [h] at hc
        exact Bool.false_ne_true hc.2
    have hsel : select_action q ui ex c = argmaxFirst q := by
      simp only [select_action, if_neg hcond]
    rw [hsel]
    exact argmaxFirst_spec q hq

/-- Witness for `select_action_correct`: both branches at concrete
inputs. -/
theorem select_action_correct_witness :
    (select_action [1, 3, 3, 2] [9, 8] true 3 = ([9, 8] : List ℕ).getD (3 % 2) 0
      ∧ select_action [1, 3, 3, 2] [9, 8] true 3 ∈ ([9, 8] : List ℕ))
    ∧ (select_action [1, 3, 3, 2] [] false 0 < ([1, 3, 3, 2] : List ℚ).length) :=
  ⟨(select_action_correct [1, 3, 3, 2] [9, 8] true 3 (by simp)).1
      (by simp) rfl,
   ((select_action_correct [1, 3, 3, 2] [] false 0 (by simp)).2
      (Or.inl rfl)).1⟩

/-- C7: evaluation at the failing input.  With train item ids `[10]`
and test item ids `[10, 20]`, the remapping sends the original id `20`
to the dense id `1`, while `num_items` (the distinct-item count of the
remapped TRAIN split alone) is `1` — so a mapped id falls outside
`[0, num_items)`, contradicting the claimed bijection onto
`[0, num_items)`. -/
theorem item_mapping_out_of_range :
    item_mapping [10] [10, 20] 20 = some 1
    ∧ num_items_src [10] [10, 20] = 1
    ∧ ¬ ((1 : ℕ) < num_items_src [10] [10, 20]) := by
  refine ⟨?_, ?_, ?_⟩ <;> decide

end RLRec
